import Mathlib

/-!
Shallow embedding of `torcontactinfo.py` (erans/torcontactinfoparser):
the `TorContactInfoParser` class, its field registry
`_supported_fields_parsers`, the value validators `_parse_string_value`
and `_parse_email_value`, and the `parse` method.

Python strings are modelled as `List Char`; Python dicts (the registry,
each bounded rule's `args` dict and the result dict) as insertion-ordered
association lists with an overwrite-in-place update, matching CPython
dict semantics.  `parse` threads the registry explicitly because the
source mutates each bounded rule's `args` dict in place; raised
`ValueError`s are modelled with `Except`.
-/

deriving instance DecidableEq for Except

namespace TorContactInfo

/-- Python strings as lists of characters. -/
abbrev Str : Type := List Char

/-- Is `p` a prefix of `l`?  (Boolean, used to model substring search.) -/
def pfx : Str → Str → Bool
  | [], _ => true
  | _ :: _, [] => false
  | a :: as, b :: bs => a = b && pfx as bs

/-- Model of Python's `needle in haystack` substring test. -/
def hasSubstr (needle : Str) : Str → Bool
  | [] => pfx needle []
  | c :: t => pfx needle (c :: t) || hasSubstr needle t

/-- Model of Python's `s.split(sep)` for a one-character separator:
splits on every occurrence, keeping empty pieces. -/
def splitOnChar (sep : Char) : Str → List Str
  | [] => [[]]
  | c :: t =>
    if c = sep then [] :: splitOnChar sep t
    else
      match splitOnChar sep t with
      | [] => [[c]]
      | w :: ws => (c :: w) :: ws

/-- Model of Python's `s.split(sep, 1)` outcome: `none` when `sep` does
not occur (the word is discarded by the parser), otherwise the pieces
before and after the first occurrence. -/
def splitFirst (sep : Char) : Str → Option (Str × Str)
  | [] => none
  | c :: t =>
    if c = sep then some ([], t)
    else (splitFirst sep t).map (fun p => (c :: p.1, p.2))

/-- Lookup in an insertion-ordered association list (Python dict read). -/
def alGet {α : Type} (k : Str) : List (Str × α) → Option α
  | [] => none
  | (k', v) :: t => if k' = k then some v else alGet k t

/-- Update of an insertion-ordered association list (Python dict write):
overwrite in place if the key exists, else append at the end. -/
def alSet {α : Type} (k : Str) (v : α) : List (Str × α) → List (Str × α)
  | [] => [(k, v)]
  | (k', v') :: t => if k' = k then (k, v) :: t else (k', v') :: alSet k v t

/-- Model of Python's `value.replace("[]", "@")`: left-to-right,
non-overlapping replacement of the obfuscation marker. -/
def replaceBrk : Str → Str
  | '[' :: ']' :: t => '@' :: replaceBrk t
  | c :: t => c :: replaceBrk t
  | [] => []

/-- `TorContactInfoParser._parse_email_value`: Python's `if value:` is
the non-emptiness test on strings. -/
def parse_email_value (value : Str) : Str :=
  if value = [] then value else replaceBrk value

/-- One item of a regex bracket expression: a literal character or an
inclusive character range. -/
inductive ClassItem : Type where
  | lit (c : Char)
  | range (lo hi : Char)
deriving DecidableEq

/-- Parse the body of a bracket expression (`a-z` ranges; a `-` that is
not between two characters is a literal, as in Python's `re`). -/
def classItems : Str → List ClassItem
  | a :: '-' :: b :: rest => ClassItem.range a b :: classItems rest
  | a :: rest => ClassItem.lit a :: classItems rest
  | [] => []

/-- Does character `c` match one bracket-expression item?  Ranges compare
code points, as Python's `re` does. -/
def itemMatches (c : Char) : ClassItem → Bool
  | ClassItem.lit d => c = d
  | ClassItem.range lo hi => lo.toNat ≤ c.toNat && c.toNat ≤ hi.toNat

/-- The body of a bracket-expression pattern `[body]` or `[body]+`. -/
def classBody (pattern : Str) : Str :=
  match pattern with
  | '[' :: rest => rest.takeWhile (fun c => c ≠ ']')
  | _ => []

/-- Does `c` match the bracket expression of `pattern`? -/
def matchesClass (pattern : Str) (c : Char) : Bool :=
  (classItems (classBody pattern)).any (itemMatches c)

/-- Model of Python's `re.search(pattern, value) is not None`, restricted
to the patterns the registry uses: a single bracket expression, possibly
followed by `+`.  Such a pattern has a match in `value` iff some single
character of `value` matches the bracket expression. -/
def reSearch (pattern : Str) (value : Str) : Bool :=
  value.any (matchesClass pattern)

/-- The wildcard marker `"*"`: `_parse_string_value` skips the character
check when `valid_chars` equals it. -/
def wildcard : Str := "*".toList

/-- The error message `"value of field '{0}' is too short"` formatted at
`field_name`. -/
def tooShortMsg (fieldName : Str) : Str :=
  "value of field '".toList ++ fieldName ++ "' is too short".toList

/-- The error message `"value of field '{0}' is too long"` formatted at
`field_name`. -/
def tooLongMsg (fieldName : Str) : Str :=
  "value of field '".toList ++ fieldName ++ "' is too long".toList

/-- The error message `"value of field '{0}' doesn't match valid chars
restrictions"` formatted at `field_name`. -/
def badCharsMsg (fieldName : Str) : Str :=
  "value of field '".toList ++ fieldName ++
    "' doesn't match valid chars restrictions".toList

/-- A raised Python exception. -/
inductive PyErr : Type where
  | valueError (msg : Str)
  | typeError
deriving DecidableEq

/-- `TorContactInfoParser._parse_string_value` with its keyword arguments
made explicit: length bounds first (too short, then too long), then the
character-class search unless `valid_chars` is the wildcard.  Returns
`.ok none` for a rejected value in default mode and raises (`.error`) in
strict mode. -/
def parse_string_value (value : Str) (min_length max_length : Nat)
    (valid_chars : Str) (raise_exception : Bool) (field_name : Str) :
    Except PyErr (Option Str) :=
  if value.length < min_length then
    if raise_exception then .error (.valueError (tooShortMsg field_name))
    else .ok none
  else if max_length < value.length then
    if raise_exception then .error (.valueError (tooLongMsg field_name))
    else .ok none
  else if valid_chars ≠ wildcard then
    if reSearch valid_chars value then .ok (some value)
    else if raise_exception then .error (.valueError (badCharsMsg field_name))
    else .ok none
  else .ok (some value)

/-- A Python value stored in a rule's `args` dict. -/
inductive PyVal : Type where
  | vNat (n : Nat)
  | vStr (s : Str)
  | vBool (b : Bool)
deriving DecidableEq

/-- A bounded rule's `args` dict. -/
abbrev Args : Type := List (Str × PyVal)

/-- One entry of `_supported_fields_parsers`: either the bound method
`_parse_email_value`, or a `{"fn": _parse_string_value, "args": {...}}`
dict, or a `None` entry (the `field_parser is None` branch of `parse`;
the shipped registry has no such entry). -/
inductive Rule : Type where
  | rawNone
  | email
  | bounded (args : Args)
deriving DecidableEq

/-- The registry type: `_supported_fields_parsers` as an
insertion-ordered dict. -/
abbrev Registry : Type := List (Str × Rule)

/-- The result dict built by `parse`: field name to normalized value, a
rejected field mapping to `none` (Python `None`). -/
abbrev Res : Type := List (Str × Option Str)

/-- The `args` key `"min_length"`. -/
def mnK : Str := "min_length".toList

/-- The `args` key `"max_length"`. -/
def mxK : Str := "max_length".toList

/-- The `args` key `"valid_chars"`. -/
def vcK : Str := "valid_chars".toList

/-- The `args` key `"field_name"`, set by `parse` before each call. -/
def fnK : Str := "field_name".toList

/-- The `args` key `"value"`, set by `parse` before each call. -/
def vK : Str := "value".toList

/-- The `args` key `"raise_exception"`, set by `parse` before each call. -/
def reK : Str := "raise_exception".toList

/-- Shorthand for a bounded registry entry with the three schema keys in
their source order. -/
def boundedEntry (mn mx : Nat) (vc : String) : Rule :=
  Rule.bounded [(mnK, PyVal.vNat mn), (mxK, PyVal.vNat mx),
    (vcK, PyVal.vStr vc.toList)]

/-- `TorContactInfoParser._supported_fields_parsers`, entry for entry in
source order. -/
def supported_fields_parsers : Registry := [
  ("email".toList, Rule.email),
  ("url".toList, boundedEntry 4 399 "[_%/:a-zA-Z0-9.-]+"),
  ("proof".toList, boundedEntry 7 7 "[adinrsu-]+"),
  ("ciissversion".toList, boundedEntry 1 1 "[12]+"),
  ("pgp".toList, boundedEntry 40 40 "[a-zA-Z0-9]+"),
  ("abuse".toList, Rule.email),
  ("keybase".toList, boundedEntry 0 50 "[a-zA-Z0-9]+"),
  ("twitter".toList, boundedEntry 1 15 "[a-zA-Z0-9_]+"),
  ("mastodon".toList, boundedEntry 0 254 "*"),
  ("matrix".toList, boundedEntry 0 254 "*"),
  ("xmpp".toList, Rule.email),
  ("otr3".toList, boundedEntry 40 40 "[a-z0-9]+"),
  ("hoster".toList, boundedEntry 0 254 "[a-zA-Z0-9.-]+"),
  ("cost".toList, boundedEntry 0 13 "[A-Z0-9.]+"),
  ("uplinkbw".toList, boundedEntry 0 7 "[0-9]+"),
  ("trafficacct".toList, boundedEntry 0 7 "[unmetered0-9]+"),
  ("memory".toList, boundedEntry 0 10 "[0-9]+"),
  ("cpu".toList, boundedEntry 0 50 "[a-zA-Z0-9_-]+"),
  ("virtualization".toList, boundedEntry 0 15 "[a-z-]+"),
  ("donationurl".toList, boundedEntry 0 254 "*"),
  ("btc".toList, boundedEntry 26 99 "[a-zA-Z0-9]+"),
  ("zec".toList, boundedEntry 0 95 "[a-zA-Z0-9]+"),
  ("xmr".toList, boundedEntry 0 99 "[a-zA-Z0-9]+"),
  ("offlinemasterkey".toList, boundedEntry 1 1 "[yn]"),
  ("signingkeylifetime".toList, boundedEntry 0 6 "[0-9]+"),
  ("sandbox".toList, boundedEntry 1 2 "[yn]"),
  ("os".toList, boundedEntry 0 20 "[A-Za-z0-9/.]+"),
  ("tls".toList, boundedEntry 0 14 "[a-z]+"),
  ("aesni".toList, boundedEntry 1 1 "[yn]"),
  ("autoupdate".toList, boundedEntry 1 1 "[yn]"),
  ("confmgmt".toList, boundedEntry 1 15 "[a-zA-Z-]"),
  ("dnslocation".toList, boundedEntry 5 100 "[a-z,]"),
  ("dnsqname".toList, boundedEntry 1 1 "[yn]"),
  ("dnssec".toList, boundedEntry 1 1 "[yn]"),
  ("dnslocalrootzone".toList, boundedEntry 1 1 "[yn]")]

/-- The call `field_parser["fn"](self, **field_parser["args"])`: read the
keyword arguments out of the (mutated) `args` dict and call
`_parse_string_value`; a malformed dict would be a Python `TypeError`. -/
def call_parse_string_value (args : Args) : Except PyErr (Option Str) :=
  match alGet vK args, alGet mnK args, alGet mxK args, alGet vcK args,
      alGet reK args, alGet fnK args with
  | some (.vStr value), some (.vNat mn), some (.vNat mx), some (.vStr vc),
      some (.vBool re), some (.vStr fn) =>
    parse_string_value value mn mx vc re fn
  | _, _, _, _, _, _ => .error .typeError

/-- The mutation `parse` performs on a bounded rule's `args` dict before
calling its `fn`: set `field_name`, then `value`, then
`raise_exception`. -/
def setCallArgs (name data : Str) (raiseExc : Bool) (args : Args) : Args :=
  alSet reK (PyVal.vBool raiseExc)
    (alSet vK (PyVal.vStr data) (alSet fnK (PyVal.vStr name) args))

/-- The token loop of `TorContactInfoParser.parse`, threading the
registry because evaluating a bounded field mutates its `args` dict in
place.  Words without a colon and names missing from the registry are
skipped. -/
def parseLoop (raiseExc : Bool) :
    Registry → List Str → Res → Except PyErr (Res × Registry)
  | reg, [], res => .ok (res, reg)
  | reg, p :: rest, res =>
    match splitFirst ':' p with
    | none => parseLoop raiseExc reg rest res
    | some (name, data) =>
      match alGet name reg with
      | none => parseLoop raiseExc reg rest res
      | some Rule.rawNone =>
        parseLoop raiseExc reg rest (alSet name (some data) res)
      | some Rule.email =>
        parseLoop raiseExc reg rest
          (alSet name (some (parse_email_value data)) res)
      | some (Rule.bounded args) =>
        let args2 := setCallArgs name data raiseExc args
        let reg2 := alSet name (Rule.bounded args2) reg
        match call_parse_string_value args2 with
        | .error e => .error e
        | .ok v => parseLoop raiseExc reg2 rest (alSet name v res)

/-- The substring the mandatory-field guard of `parse` looks for in the
raw input: `'ciissversion:' in value`. -/
def ciissGuard : Str := "ciissversion:".toList

/-- `TorContactInfoParser.parse`: `none` (Python `None`) when the raw
input does not contain `"ciissversion:"` as a substring; otherwise the
result dict accumulated over the space-split words.  The returned
registry is the (possibly mutated) `_supported_fields_parsers`. -/
def parse (reg : Registry) (value : Str) (raise_exception_on_invalid_value : Bool) :
    Except PyErr (Option Res × Registry) :=
  if hasSubstr ciissGuard value then
    match parseLoop raise_exception_on_invalid_value reg
        (splitOnChar ' ' value) [] with
    | .error e => .error e
    | .ok (res, reg2) => .ok (some res, reg2)
  else .ok (none, reg)

/-- The part of a registry rule that `parse` ever reads: the rule kind
and, for a bounded rule, the `args` lookups of the three schema keys
(`parse` overwrites the other three keys before each call). -/
inductive RuleC : Type where
  | rawNone
  | email
  | bounded (mn mx vc : Option PyVal)
deriving DecidableEq

/-- The read-only core of a rule. -/
def ruleCore : Rule → RuleC
  | Rule.rawNone => RuleC.rawNone
  | Rule.email => RuleC.email
  | Rule.bounded args =>
    RuleC.bounded (alGet mnK args) (alGet mxK args) (alGet vcK args)

/-- The read-only core of a registry. -/
def regCore (reg : Registry) : List (Str × RuleC) :=
  reg.map (fun e => (e.1, ruleCore e.2))

/-- Evaluating one token against the core of its rule. -/
def evalCore (raiseExc : Bool) (name data : Str) : RuleC → Except PyErr (Option Str)
  | RuleC.rawNone => .ok (some data)
  | RuleC.email => .ok (some (parse_email_value data))
  | RuleC.bounded (some (.vNat mn)) (some (.vNat mx)) (some (.vStr vc)) =>
    parse_string_value data mn mx vc raiseExc name
  | RuleC.bounded _ _ _ => .error .typeError

/-- The pure (registry-preserving) form of the token loop. -/
def loopC (creg : List (Str × RuleC)) (raiseExc : Bool) :
    List Str → Res → Except PyErr Res
  | [], res => .ok res
  | p :: rest, res =>
    match splitFirst ':' p with
    | none => loopC creg raiseExc rest res
    | some (name, data) =>
      match alGet name creg with
      | none => loopC creg raiseExc rest res
      | some rc =>
        match evalCore raiseExc name data rc with
        | .error e => .error e
        | .ok v => loopC creg raiseExc rest (alSet name v res)

/-- The read-only core of the shipped registry. -/
def SC : List (Str × RuleC) := regCore supported_fields_parsers

/-- The pure functional form of `parse` over the shipped registry: the
result component of `parse supported_fields_parsers`. -/
def parseC (value : Str) (raiseExc : Bool) : Except PyErr (Option Res) :=
  if hasSubstr ciissGuard value then
    match loopC SC raiseExc (splitOnChar ' ' value) [] with
    | .error e => .error e
    | .ok res => .ok (some res)
  else .ok none

/-- The `(name, rawValue)` tokens `parse` extracts from an input line. -/
def tokensOf (value : Str) : List (Str × Str) :=
  (splitOnChar ' ' value).filterMap (splitFirst ':')

/-- The raw values of the tokens named `name` in an input line, in
order. -/
def namedValues (value : Str) (name : Str) : List Str :=
  ((tokensOf value).filter (fun t => t.1 = name)).map (fun t => t.2)

/-- Is a value rejected by a bounded rule (in either mode)? -/
def rejectB (mn mx : Nat) (vc : Str) (d : Str) : Bool :=
  d.length < mn || mx < d.length || (vc ≠ wildcard && !reSearch vc d)

/-- Is a core rule well formed: for a bounded rule, its three schema
keys present with the expected types? -/
def wfRule : RuleC → Bool
  | RuleC.rawNone => true
  | RuleC.email => true
  | RuleC.bounded (some (.vNat _)) (some (.vNat _)) (some (.vStr _)) => true
  | RuleC.bounded _ _ _ => false

/-- Is every rule of a core registry well formed? -/
def regWF (creg : List (Str × RuleC)) : Bool :=
  creg.all (fun e => wfRule e.2)

/-- The value a token stores into the result dict in default
(non-strict) mode. -/
def evalD : RuleC → Str → Option Str
  | RuleC.rawNone, d => some d
  | RuleC.email, d => some (parse_email_value d)
  | RuleC.bounded (some (.vNat mn)) (some (.vNat mx)) (some (.vStr vc)), d =>
    if rejectB mn mx vc d then none else some d
  | RuleC.bounded _ _ _, _ => none

/-- The raw values of the tokens named `name` in a word list, in
order. -/
def namedOf (parts : List Str) (name : Str) : List Str :=
  ((parts.filterMap (splitFirst ':')).filter (fun t => t.1 = name)).map
    (fun t => t.2)

/-- The obfuscation marker as a character list. -/
def brkMark : Str := "[]".toList

/-- Space-joining of a word list, for stating the tokenizer round
trip. -/
def joinWords : List Str → Str
  | [] => []
  | [w] => w
  | w :: ws => w ++ ' ' :: joinWords ws

theorem alGet_alSet_self {α : Type} (k : Str) (v : α) (l : List (Str × α)) :
    alGet k (alSet k v l) = some v := by
  induction l with
  | nil => simp [alGet, alSet]
  | cons e t ih =>
    obtain ⟨k0, v0⟩ := e
    by_cases h : k0 = k
    · subst h; simp [alGet, alSet]
    · simp [alGet, alSet, h, ih]

theorem alGet_alSet_ne {α : Type} {k k' : Str} (h : k' ≠ k) (v : α)
    (l : List (Str × α)) : alGet k (alSet k' v l) = alGet k l := by
  induction l with
  | nil => simp [alGet, alSet, h]
  | cons e t ih =>
    obtain ⟨k0, v0⟩ := e
    by_cases h0 : k0 = k'
    · subst h0; simp [alGet, alSet, h]
    · simp only [alSet, if_neg h0, alGet]
      by_cases h1 : k0 = k <;> simp [h1, ih]

theorem alGet_mem {α : Type} {k : Str} {v : α} {l : List (Str × α)}
    (h : alGet k l = some v) : (k, v) ∈ l := by
  induction l with
  | nil => simp [alGet] at h
  | cons e t ih =>
    obtain ⟨k0, v0⟩ := e
    by_cases h0 : k0 = k
    · subst h0
      simp [alGet] at h
      rw [← h]
      exact List.mem_cons_self _ _
    · simp only [alGet, if_neg h0] at h
      exact List.mem_cons_of_mem _ (ih h)

theorem regCore_cons (e : Str × Rule) (l : Registry) :
    regCore (e :: l) = (e.1, ruleCore e.2) :: regCore l := rfl

theorem alGet_regCore (k : Str) (reg : Registry) :
    alGet k (regCore reg) = (alGet k reg).map ruleCore := by
  induction reg with
  | nil => rfl
  | cons e t ih =>
    obtain ⟨k0, r0⟩ := e
    by_cases h0 : k0 = k
    · simp [regCore, alGet, h0]
    · simp only [regCore, List.map_cons, alGet, if_neg h0]
      simpa [regCore] using ih

theorem regCore_alSet_eq {k : Str} {r r' : Rule} {reg : Registry}
    (hget : alGet k reg = some r) (hcore : ruleCore r' = ruleCore r) :
    regCore (alSet k r' reg) = regCore reg := by
  induction reg with
  | nil => simp [alGet] at hget
  | cons e t ih =>
    obtain ⟨k0, r0⟩ := e
    by_cases h0 : k0 = k
    · subst h0
      simp [alGet] at hget
      have hs : alSet k0 r' ((k0, r0) :: t) = (k0, r') :: t := by simp [alSet]
      rw [hs, regCore_cons, regCore_cons, hcore, hget]
    · simp only [alGet, if_neg h0] at hget
      have hs : alSet k r' ((k0, r0) :: t) = (k0, r0) :: alSet k r' t := by
        simp [alSet, h0]
      rw [hs, regCore_cons, regCore_cons, ih hget]

theorem alGet_setCallArgs_mn (name data : Str) (b : Bool) (args : Args) :
    alGet mnK (setCallArgs name data b args) = alGet mnK args := by
  unfold setCallArgs
  rw [alGet_alSet_ne (by decide), alGet_alSet_ne (by decide),
    alGet_alSet_ne (by decide)]

theorem alGet_setCallArgs_mx (name data : Str) (b : Bool) (args : Args) :
    alGet mxK (setCallArgs name data b args) = alGet mxK args := by
  unfold setCallArgs
  rw [alGet_alSet_ne (by decide), alGet_alSet_ne (by decide),
    alGet_alSet_ne (by decide)]

theorem alGet_setCallArgs_vc (name data : Str) (b : Bool) (args : Args) :
    alGet vcK (setCallArgs name data b args) = alGet vcK args := by
  unfold setCallArgs
  rw [alGet_alSet_ne (by decide), alGet_alSet_ne (by decide),
    alGet_alSet_ne (by decide)]

theorem alGet_setCallArgs_v (name data : Str) (b : Bool) (args : Args) :
    alGet vK (setCallArgs name data b args) = some (PyVal.vStr data) := by
  unfold setCallArgs
  rw [alGet_alSet_ne (by decide), alGet_alSet_self]

theorem alGet_setCallArgs_re (name data : Str) (b : Bool) (args : Args) :
    alGet reK (setCallArgs name data b args) = some (PyVal.vBool b) := by
  unfold setCallArgs
  rw [alGet_alSet_self]

theorem alGet_setCallArgs_fn (name data : Str) (b : Bool) (args : Args) :
    alGet fnK (setCallArgs name data b args) = some (PyVal.vStr name) := by
  unfold setCallArgs
  rw [alGet_alSet_ne (by decide), alGet_alSet_ne (by decide), alGet_alSet_self]

theorem ruleCore_setCallArgs (name data : Str) (b : Bool) (args : Args) :
    ruleCore (Rule.bounded (setCallArgs name data b args)) =
      ruleCore (Rule.bounded args) := by
  simp [ruleCore, alGet_setCallArgs_mn, alGet_setCallArgs_mx,
    alGet_setCallArgs_vc]

theorem call_setCallArgs (name data : Str) (b : Bool) (args : Args) :
    call_parse_string_value (setCallArgs name data b args) =
      evalCore b name data (ruleCore (Rule.bounded args)) := by
  unfold call_parse_string_value
  rw [alGet_setCallArgs_v, alGet_setCallArgs_mn, alGet_setCallArgs_mx,
    alGet_setCallArgs_vc, alGet_setCallArgs_re, alGet_setCallArgs_fn]
  show _ = evalCore b name data
    (RuleC.bounded (alGet mnK args) (alGet mxK args) (alGet vcK args))
  generalize alGet mnK args = omn
  generalize alGet mxK args = omx
  generalize alGet vcK args = ovc
  rcases omn with _ | (n1 | s1 | b1) <;>
    rcases omx with _ | (n2 | s2 | b2) <;>
      rcases ovc with _ | (n3 | s3 | b3) <;> rfl

theorem parseLoop_refines (b : Bool) (parts : List Str) :
    ∀ (reg : Registry) (res : Res),
      Except.map Prod.fst (parseLoop b reg parts res) =
        loopC (regCore reg) b parts res ∧
      ∀ r reg2, parseLoop b reg parts res = .ok (r, reg2) →
        regCore reg2 = regCore reg := by
  induction parts with
  | nil =>
    intro reg res
    refine ⟨rfl, ?_⟩
    intro r reg2 h
    simp only [parseLoop, Except.ok.injEq, Prod.mk.injEq] at h
    rw [← h.2]
  | cons p rest ih =>
    intro reg res
    cases hsp : splitFirst ':' p with
    | none =>
      simp only [parseLoop, loopC, hsp]
      exact ih reg res
    | some nd =>
      obtain ⟨name, data⟩ := nd
      cases hget : alGet name reg with
      | none =>
        simp only [parseLoop, loopC, hsp, hget, alGet_regCore,
          Option.map_none']
        exact ih reg res
      | some r =>
        cases r with
        | rawNone =>
          simp only [parseLoop, loopC, hsp, hget, alGet_regCore,
            Option.map_some', ruleCore, evalCore]
          exact ih reg (alSet name (some data) res)
        | email =>
          simp only [parseLoop, loopC, hsp, hget, alGet_regCore,
            Option.map_some', ruleCore, evalCore]
          exact ih reg (alSet name (some (parse_email_value data)) res)
        | bounded args =>
          simp only [parseLoop, loopC, hsp, hget, alGet_regCore,
            Option.map_some']
          rw [call_setCallArgs]
          have hcore : regCore (alSet name
              (Rule.bounded (setCallArgs name data b args)) reg) = regCore reg :=
            regCore_alSet_eq hget (ruleCore_setCallArgs name data b args)
          cases hev : evalCore b name data (ruleCore (Rule.bounded args)) with
          | error e =>
            exact ⟨rfl, fun r reg2 h => by cases h⟩
          | ok v =>
            have hih := ih (alSet name
              (Rule.bounded (setCallArgs name data b args)) reg) (alSet name v res)
            refine ⟨?_, ?_⟩
            · show Except.map Prod.fst (parseLoop b (alSet name
                  (Rule.bounded (setCallArgs name data b args)) reg) rest
                  (alSet name v res)) =
                loopC (regCore reg) b rest (alSet name v res)
              rw [hih.1, hcore]
            · intro r reg2 h
              exact (hih.2 r reg2 h).trans hcore

theorem parse_refines (input : Str) (b : Bool) :
    Except.map Prod.fst (parse supported_fields_parsers input b) =
      parseC input b := by
  unfold parse parseC
  simp only [SC]
  by_cases h : hasSubstr ciissGuard input = true
  · rw [if_pos h, if_pos h]
    have href := (parseLoop_refines b (splitOnChar ' ' input)
      supported_fields_parsers []).1
    cases hloop : parseLoop b supported_fields_parsers
        (splitOnChar ' ' input) [] with
    | error e =>
      rw [hloop] at href
      rw [← href]
      rfl
    | ok p =>
      obtain ⟨r, reg2⟩ := p
      rw [hloop] at href
      rw [← href]
      rfl
  · rw [if_neg h, if_neg h]
    rfl

theorem parse_regCore {input : Str} {b : Bool} {r : Option Res}
    {reg2 : Registry}
    (h : parse supported_fields_parsers input b = .ok (r, reg2)) :
    regCore reg2 = SC := by
  unfold parse at h
  simp only [SC]
  by_cases hg : hasSubstr ciissGuard input = true
  · rw [if_pos hg] at h
    cases hloop : parseLoop b supported_fields_parsers
        (splitOnChar ' ' input) [] with
    | error e => rw [hloop] at h; cases h
    | ok p =>
      obtain ⟨res, reg3⟩ := p
      rw [hloop] at h
      simp only [Except.ok.injEq, Prod.mk.injEq] at h
      rw [← h.2]
      exact (parseLoop_refines b (splitOnChar ' ' input)
        supported_fields_parsers []).2 res reg3 hloop
  · rw [if_neg hg] at h
    simp only [Except.ok.injEq, Prod.mk.injEq] at h
    rw [← h.2]

theorem psv_default (d : Str) (mn mx : Nat) (vc : Str) (name : Str) :
    parse_string_value d mn mx vc false name =
      .ok (if rejectB mn mx vc d then none else some d) := by
  unfold parse_string_value rejectB
  by_cases h1 : d.length < mn
  · simp [h1]
  · by_cases h2 : mx < d.length
    · simp [h1, h2]
    · by_cases h3 : vc = wildcard
      · simp [h1, h2, h3]
      · by_cases h4 : reSearch vc d <;> simp [h1, h2, h3, h4]

theorem psv_strict_short {d : Str} {mn : Nat} (mx : Nat) (vc : Str) (name : Str)
    (h : d.length < mn) :
    parse_string_value d mn mx vc true name =
      .error (.valueError (tooShortMsg name)) := by
  unfold parse_string_value
  simp [h]

theorem psv_strict_long {d : Str} {mn mx : Nat} (vc : Str) (name : Str)
    (h1 : ¬ d.length < mn) (h2 : mx < d.length) :
    parse_string_value d mn mx vc true name =
      .error (.valueError (tooLongMsg name)) := by
  unfold parse_string_value
  simp [h1, h2]

theorem psv_strict_reject {d : Str} {mn mx : Nat} {vc : Str} (name : Str)
    (h : rejectB mn mx vc d = true) :
    ∃ msg, parse_string_value d mn mx vc true name =
        .error (.valueError msg) ∧
      (msg = tooShortMsg name ∨ msg = tooLongMsg name ∨
        msg = badCharsMsg name) := by
  unfold rejectB at h
  by_cases h1 : d.length < mn
  · exact ⟨_, psv_strict_short mx vc name h1, Or.inl rfl⟩
  · by_cases h2 : mx < d.length
    · exact ⟨_, psv_strict_long vc name h1 h2, Or.inr (Or.inl rfl)⟩
    · have h3 : vc ≠ wildcard ∧ reSearch vc d = false := by
        simp [h1, h2] at h
        exact ⟨h.1, h.2⟩
      refine ⟨_, ?_, Or.inr (Or.inr rfl)⟩
      unfold parse_string_value
      simp [h1, h2, h3.1, h3.2]

theorem psv_error {d : Str} {mn mx : Nat} {vc : Str} {b : Bool} {name : Str}
    {e : PyErr} (h : parse_string_value d mn mx vc b name = .error e) :
    ∃ msg, e = .valueError msg := by
  unfold parse_string_value at h
  repeat' split at h
  all_goals cases h
  all_goals exact ⟨_, rfl⟩

theorem rejectB_false_iff (d : Str) (mn mx : Nat) (vc : Str) :
    rejectB mn mx vc d = false ↔
      (mn ≤ d.length ∧ d.length ≤ mx ∧
        (vc = wildcard ∨ reSearch vc d = true)) := by
  unfold rejectB
  by_cases h1 : d.length < mn
  · simp [h1, not_le.mpr h1]
  · by_cases h2 : mx < d.length
    · simp [h1, h2, not_le.mpr h2]
    · by_cases h3 : vc = wildcard
      · simp [h1, h2, h3, not_lt.mp h1, not_lt.mp h2]
      · by_cases h4 : reSearch vc d = true
        · simp [h1, h2, h3, h4, not_lt.mp h1, not_lt.mp h2]
        · simp [h1, h2, h3, h4, not_lt.mp h1, not_lt.mp h2]

theorem psv_accept_iff (d : Str) (mn mx : Nat) (vc name : Str) :
    parse_string_value d mn mx vc false name = .ok (some d) ↔
      (mn ≤ d.length ∧ d.length ≤ mx ∧
        (vc = wildcard ∨ reSearch vc d = true)) := by
  rw [psv_default, ← rejectB_false_iff d mn mx vc]
  by_cases hr : rejectB mn mx vc d <;> simp [hr]

theorem regWF_lookup {creg : List (Str × RuleC)} {name : Str} {rc : RuleC}
    (hwf : regWF creg = true) (hget : alGet name creg = some rc) :
    wfRule rc = true :=
  List.all_eq_true.mp hwf _ (alGet_mem hget)

theorem wfRule_bounded {a b c : Option PyVal}
    (h : wfRule (RuleC.bounded a b c) = true) :
    ∃ mn mx vc, a = some (PyVal.vNat mn) ∧ b = some (PyVal.vNat mx) ∧
      c = some (PyVal.vStr vc) := by
  rcases a with _ | (n1 | s1 | b1) <;> rcases b with _ | (n2 | s2 | b2) <;>
    rcases c with _ | (n3 | s3 | b3) <;> simp [wfRule] at h
  exact ⟨_, _, _, rfl, rfl, rfl⟩

theorem evalCore_default {rc : RuleC} (hwf : wfRule rc = true) (name d : Str) :
    evalCore false name d rc = .ok (evalD rc d) := by
  cases rc with
  | rawNone => rfl
  | email => rfl
  | bounded a b c =>
    obtain ⟨mn, mx, vc, rfl, rfl, rfl⟩ := wfRule_bounded hwf
    show parse_string_value d mn mx vc false name = _
    rw [psv_default]
    rfl

theorem evalCore_error_shape {rc : RuleC} {b : Bool} {name d : Str} {e : PyErr}
    (hwf : wfRule rc = true) (h : evalCore b name d rc = .error e) :
    ∃ msg, e = .valueError msg := by
  cases rc with
  | rawNone => cases h
  | email => cases h
  | bounded a bb c =>
    obtain ⟨mn, mx, vc, rfl, rfl, rfl⟩ := wfRule_bounded hwf
    exact psv_error h

theorem loopC_default_ok {creg : List (Str × RuleC)} (hwf : regWF creg = true) :
    ∀ (parts : List Str) (res : Res),
      ∃ res', loopC creg false parts res = .ok res' := by
  intro parts
  induction parts with
  | nil => intro res; exact ⟨res, rfl⟩
  | cons p rest ih =>
    intro res
    cases hsp : splitFirst ':' p with
    | none => simpa only [loopC, hsp] using ih res
    | some nd =>
      obtain ⟨name, data⟩ := nd
      cases hget : alGet name creg with
      | none => simpa only [loopC, hsp, hget] using ih res
      | some rc =>
        have hrc := regWF_lookup hwf hget
        simpa only [loopC, hsp, hget, evalCore_default hrc] using
          ih (alSet name (evalD rc data) res)

theorem namedOf_eq (input : Str) (name : Str) :
    namedOf (splitOnChar ' ' input) name = namedValues input name := rfl

theorem namedOf_cons_none {p : Str} (rest : List Str) (name : Str)
    (hsp : splitFirst ':' p = none) :
    namedOf (p :: rest) name = namedOf rest name := by
  simp [namedOf, List.filterMap_cons, hsp]

theorem namedOf_cons_ne {p : Str} {n d : Str} (rest : List Str) {name : Str}
    (hsp : splitFirst ':' p = some (n, d)) (hne : n ≠ name) :
    namedOf (p :: rest) name = namedOf rest name := by
  simp [namedOf, List.filterMap_cons, hsp, List.filter_cons, hne]

theorem namedOf_cons_eq {p : Str} {d : Str} (rest : List Str) {name : Str}
    (hsp : splitFirst ':' p = some (name, d)) :
    namedOf (p :: rest) name = d :: namedOf rest name := by
  simp [namedOf, List.filterMap_cons, hsp, List.filter_cons]

theorem getLast?_cons_getD {α : Type} (a : α) (l : List α) :
    (a :: l).getLast? = some ((l.getLast?).getD a) := by
  cases hl : l.getLast? with
  | none =>
    rw [List.getLast?_eq_none_iff.mp hl]
    rfl
  | some x =>
    cases l with
    | nil => cases hl
    | cons b t =>
      rw [List.getLast?_cons_cons, hl]
      rfl

theorem loopC_lastNamed {creg : List (Str × RuleC)} (hwf : regWF creg = true)
    {name : Str} {rc : RuleC} (hget : alGet name creg = some rc) :
    ∀ (parts : List Str) (res res' : Res),
      loopC creg false parts res = .ok res' →
      alGet name res' =
        (match (namedOf parts name).getLast? with
         | some d => some (evalD rc d)
         | none => alGet name res) := by
  intro parts
  induction parts with
  | nil =>
    intro res res' h
    simp only [loopC, Except.ok.injEq] at h
    rw [← h]
    rfl
  | cons p rest ih =>
    intro res res' h
    cases hsp : splitFirst ':' p with
    | none =>
      simp only [loopC, hsp] at h
      rw [namedOf_cons_none rest name hsp]
      exact ih res res' h
    | some nd =>
      obtain ⟨n, d⟩ := nd
      by_cases hn : n = name
      · subst hn
        rw [namedOf_cons_eq rest hsp, getLast?_cons_getD]
        simp only [loopC, hsp, hget, evalCore_default (regWF_lookup hwf hget)]
          at h
        have hih := ih (alSet n (evalD rc d) res) res' h
        cases hl : (namedOf rest n).getLast? with
        | none =>
          rw [hl] at hih
          rw [hih, alGet_alSet_self]
          rfl
        | some d2 =>
          rw [hl] at hih
          rw [hih]
          rfl
      · rw [namedOf_cons_ne rest hsp hn]
        cases hget2 : alGet n creg with
        | none =>
          simp only [loopC, hsp, hget2] at h
          exact ih res res' h
        | some rc2 =>
          simp only [loopC, hsp, hget2,
            evalCore_default (regWF_lookup hwf hget2)] at h
          have hih := ih (alSet n (evalD rc2 d) res) res' h
          rw [hih]
          cases (namedOf rest name).getLast? with
          | none =>
            simp only []
            exact alGet_alSet_ne hn (evalD rc2 d) res
          | some d2 => rfl

theorem loopC_strict_err {creg : List (Str × RuleC)} (hwf : regWF creg = true) :
    ∀ (parts : List Str) (res : Res),
      (∃ p, p ∈ parts ∧ ∃ n d mn mx vc,
        splitFirst ':' p = some (n, d) ∧
        alGet n creg = some (RuleC.bounded (some (PyVal.vNat mn))
          (some (PyVal.vNat mx)) (some (PyVal.vStr vc))) ∧
        rejectB mn mx vc d = true) →
      ∃ msg, loopC creg true parts res = .error (.valueError msg) := by
  intro parts
  induction parts with
  | nil =>
    intro res h
    obtain ⟨p, hp, _⟩ := h
    cases hp
  | cons p0 rest ih =>
    intro res h
    obtain ⟨p, hp, n, d, mn, mx, vc, hsp, hget, hrej⟩ := h
    cases hsp0 : splitFirst ':' p0 with
    | none =>
      simp only [loopC, hsp0]
      rcases List.mem_cons.mp hp with rfl | hp'
      · rw [hsp0] at hsp; cases hsp
      · exact ih res ⟨p, hp', n, d, mn, mx, vc, hsp, hget, hrej⟩
    | some nd =>
      obtain ⟨n0, d0⟩ := nd
      cases hget0 : alGet n0 creg with
      | none =>
        simp only [loopC, hsp0, hget0]
        rcases List.mem_cons.mp hp with rfl | hp'
        · rw [hsp0] at hsp
          cases hsp
          rw [hget] at hget0
          cases hget0
        · exact ih res ⟨p, hp', n, d, mn, mx, vc, hsp, hget, hrej⟩
      | some rc0 =>
        cases hev : evalCore true n0 d0 rc0 with
        | error e =>
          obtain ⟨msg, rfl⟩ :=
            evalCore_error_shape (regWF_lookup hwf hget0) hev
          refine ⟨msg, ?_⟩
          simp only [loopC, hsp0, hget0, hev]
        | ok v =>
          simp only [loopC, hsp0, hget0, hev]
          rcases List.mem_cons.mp hp with rfl | hp'
          · rw [hsp0] at hsp
            cases hsp
            rw [hget] at hget0
            cases hget0
            obtain ⟨msg, hmsg, _⟩ := psv_strict_reject n hrej
            have hev2 : parse_string_value d mn mx vc true n = .ok v := hev
            rw [hmsg] at hev2
            cases hev2
          · exact ih (alSet n0 v res) ⟨p, hp', n, d, mn, mx, vc, hsp, hget, hrej⟩

theorem splitFirst_eq {sep : Char} : ∀ {w a b : Str},
    splitFirst sep w = some (a, b) → w = a ++ sep :: b := by
  intro w
  induction w with
  | nil => intro a b h; cases h
  | cons c t ih =>
    intro a b h
    simp only [splitFirst] at h
    by_cases hc : c = sep
    · rw [if_pos hc] at h
      cases h
      rw [hc]
      rfl
    · rw [if_neg hc] at h
      cases hsf : splitFirst sep t with
      | none => rw [hsf] at h; cases h
      | some p =>
        obtain ⟨a', b'⟩ := p
        rw [hsf] at h
        simp only [Option.map_some'] at h
        cases h
        rw [List.cons_append, ← ih hsf]

theorem pfx_trans : ∀ (a b c : Str),
    pfx a b = true → pfx b c = true → pfx a c = true := by
  intro a
  induction a with
  | nil => intro b c _ _; rfl
  | cons x xs ih =>
    intro b c hab hbc
    cases b with
    | nil => cases hab
    | cons y ys =>
      cases c with
      | nil => cases hbc
      | cons z zs =>
        simp only [pfx, Bool.and_eq_true, decide_eq_true_eq] at hab hbc ⊢
        exact ⟨hab.1.trans hbc.1, ih ys zs hab.2 hbc.2⟩

theorem hasSubstr_of_pfx {p w : Str} :
    ∀ (l : Str), pfx p w = true → hasSubstr w l = true →
      hasSubstr p l = true := by
  intro l
  induction l with
  | nil =>
    intro hpw hwl
    exact pfx_trans p w [] hpw hwl
  | cons c t ih =>
    intro hpw hwl
    rcases Bool.or_eq_true_iff.mp hwl with h | h
    · show (pfx p (c :: t) || hasSubstr p t) = true
      rw [pfx_trans p w (c :: t) hpw h, Bool.true_or]
    · show (pfx p (c :: t) || hasSubstr p t) = true
      rw [ih hpw h, Bool.or_true]

theorem splitOnChar_ne_nil (sep : Char) (l : Str) : splitOnChar sep l ≠ [] := by
  cases l with
  | nil => simp [splitOnChar]
  | cons c t =>
    simp only [splitOnChar]
    by_cases hc : c = sep
    · simp [hc]
    · rw [if_neg hc]
      cases splitOnChar sep t <;> simp

theorem splitOnChar_head_pfx (sep : Char) :
    ∀ (l w : Str) (ws : List Str),
      splitOnChar sep l = w :: ws → pfx w l = true := by
  intro l
  induction l with
  | nil =>
    intro w ws h
    simp only [splitOnChar] at h
    cases h
    rfl
  | cons c t ih =>
    intro w ws h
    simp only [splitOnChar] at h
    by_cases hc : c = sep
    · rw [if_pos hc] at h
      cases h
      rfl
    · rw [if_neg hc] at h
      cases hsplit : splitOnChar sep t with
      | nil => exact absurd hsplit (splitOnChar_ne_nil sep t)
      | cons w0 ws0 =>
        rw [hsplit] at h
        cases h
        show pfx (c :: w0) (c :: t) = true
        simp only [pfx, Bool.and_eq_true, decide_eq_true_eq]
        exact ⟨trivial, ih _ _ hsplit⟩

theorem mem_splitOnChar_hasSubstr (sep : Char) :
    ∀ (l w : Str), w ∈ splitOnChar sep l → hasSubstr w l = true := by
  intro l
  induction l with
  | nil =>
    intro w hw
    simp [splitOnChar] at hw
    rw [hw]
    rfl
  | cons c t ih =>
    intro w hw
    simp only [splitOnChar] at hw
    by_cases hc : c = sep
    · rw [if_pos hc] at hw
      rcases List.mem_cons.mp hw with rfl | hw'
      · rfl
      · show (pfx w (c :: t) || hasSubstr w t) = true
        rw [ih w hw', Bool.or_true]
    · rw [if_neg hc] at hw
      cases hsplit : splitOnChar sep t with
      | nil => exact absurd hsplit (splitOnChar_ne_nil sep t)
      | cons w0 ws0 =>
        rw [hsplit] at hw
        rcases List.mem_cons.mp hw with rfl | hw'
        · show (pfx (c :: w0) (c :: t) || _) = true
          have hp : pfx (c :: w0) (c :: t) = true := by
            simp only [pfx, Bool.and_eq_true, decide_eq_true_eq]
            exact ⟨trivial, splitOnChar_head_pfx sep t _ _ hsplit⟩
          rw [hp, Bool.true_or]
        · have hw2 : w ∈ splitOnChar sep t := by
            rw [hsplit]
            exact List.mem_cons_of_mem _ hw'
          show (pfx w (c :: t) || hasSubstr w t) = true
          rw [ih w hw2, Bool.or_true]

theorem pfx_append_single (s : Char) :
    ∀ (a b : Str), pfx (a ++ [s]) (a ++ s :: b) = true := by
  intro a
  induction a with
  | nil => intro b; simp [pfx]
  | cons x xs ih =>
    intro b
    simp only [List.cons_append, pfx, Bool.and_eq_true, decide_eq_true_eq]
    exact ⟨trivial, ih b⟩

theorem token_hasSubstr {input n d : Str} (h : (n, d) ∈ tokensOf input) :
    hasSubstr (n ++ [':']) input = true := by
  obtain ⟨w, hw, hsf⟩ := List.mem_filterMap.mp h
  have hwl := mem_splitOnChar_hasSubstr ' ' input w hw
  have hpfx : pfx (n ++ [':']) w = true := by
    rw [splitFirst_eq hsf]
    exact pfx_append_single ':' n d
  exact hasSubstr_of_pfx input hpfx hwl

theorem namedValues_mem {input name d : Str} (h : d ∈ namedValues input name) :
    (name, d) ∈ tokensOf input := by
  unfold namedValues at h
  obtain ⟨t, ht, hd⟩ := List.mem_map.mp h
  have hft := List.mem_filter.mp ht
  have hname : t.1 = name := by simpa using hft.2
  have hmem : (t.1, t.2) ∈ tokensOf input := by simpa using hft.1
  rw [hname, hd] at hmem
  exact hmem

theorem ciiss_guard_of_token {input : Str}
    (hne : namedValues input ("ciissversion".toList) ≠ []) :
    hasSubstr ciissGuard input = true := by
  obtain ⟨d, hd⟩ := List.exists_mem_of_ne_nil _ hne
  have := token_hasSubstr (namedValues_mem hd)
  have hguard : ciissGuard = "ciissversion".toList ++ [':'] := by decide
  rw [hguard]
  exact this

theorem replaceBrk_head (c : Char) (t : Str) :
    ∃ d t', replaceBrk (c :: t) = d :: t' ∧ (d = c ∨ d = '@') := by
  rcases t with _ | ⟨c2, t2⟩
  · refine ⟨c, [], ?_, Or.inl rfl⟩
    rw [replaceBrk.eq_2 c [] (fun t' _ ht => nomatch ht)]
    rfl
  · by_cases h1 : c = '['
    · by_cases h2 : c2 = ']'
      · subst h1
        subst h2
        exact ⟨'@', replaceBrk t2, rfl, Or.inr rfl⟩
      · refine ⟨c, replaceBrk (c2 :: t2), ?_, Or.inl rfl⟩
        refine replaceBrk.eq_2 c (c2 :: t2) ?_
        intro t' _ ht
        injection ht with hh _
        exact h2 hh
    · refine ⟨c, replaceBrk (c2 :: t2), ?_, Or.inl rfl⟩
      exact replaceBrk.eq_2 c (c2 :: t2) (fun t' hc _ => h1 hc)

theorem noBrk_replaceBrk : ∀ (v : Str),
    hasSubstr brkMark (replaceBrk v) = false := by
  intro v
  induction v using replaceBrk.induct with
  | case1 t ih =>
    show hasSubstr brkMark ('@' :: replaceBrk t) = false
    show (pfx brkMark ('@' :: replaceBrk t) || hasSubstr brkMark (replaceBrk t))
      = false
    rw [ih, Bool.or_false]
    rfl
  | case2 c t h ih =>
    rw [replaceBrk.eq_2 c t h]
    show (pfx brkMark (c :: replaceBrk t) || hasSubstr brkMark (replaceBrk t))
      = false
    rw [ih, Bool.or_false]
    by_cases hc : c = '['
    · subst hc
      rcases t with _ | ⟨c2, t2⟩
      · rfl
      · have hc2 : c2 ≠ ']' := fun he => h t2 rfl (by rw [he])
        obtain ⟨d, t', hR, hd⟩ := replaceBrk_head c2 t2
        rw [hR]
        show (decide ('[' = '[') && (decide (']' = d) && pfx [] t')) = false
        have hne : ']' ≠ d := by
          rcases hd with rfl | rfl
          · exact fun he => hc2 he.symm
          · decide
        simp [hne]
    · show (decide ('[' = c) && _) = false
      have : '[' ≠ c := fun he => hc he.symm
      simp [this]
  | case3 => rfl

theorem replaceBrk_of_noBrk : ∀ (v : Str),
    hasSubstr brkMark v = false → replaceBrk v = v := by
  intro v
  induction v using replaceBrk.induct with
  | case1 t ih =>
    intro h
    exfalso
    have : pfx brkMark ('[' :: ']' :: t) = true := by
      show (decide ('[' = '[') && (decide (']' = ']') && pfx [] t)) = true
      simp [pfx]
    rw [show hasSubstr brkMark ('[' :: ']' :: t) =
      (pfx brkMark ('[' :: ']' :: t) ||
        hasSubstr brkMark (']' :: t)) from rfl, this] at h
    cases h
  | case2 c t hg ih =>
    intro h
    rw [replaceBrk.eq_2 c t hg]
    have ht : hasSubstr brkMark t = false := by
      have hsplit : hasSubstr brkMark (c :: t) =
          (pfx brkMark (c :: t) || hasSubstr brkMark t) := rfl
      rw [hsplit] at h
      exact (Bool.or_eq_false_iff.mp h).2
    rw [ih ht]
  | case3 => intro _; rfl

theorem splitFirst_no_colon : ∀ {w : Str},
    (∀ c ∈ w, c ≠ ':') → splitFirst ':' w = none := by
  intro w
  induction w with
  | nil => intro _; rfl
  | cons c t ih =>
    intro h
    simp only [splitFirst]
    rw [if_neg (h c (List.mem_cons_self c t)),
      ih (fun c' hc' => h c' (List.mem_cons_of_mem c hc'))]
    rfl

theorem splitFirst_append_colon : ∀ {name : Str} (data : Str),
    (∀ c ∈ name, c ≠ ':') →
    splitFirst ':' (name ++ ':' :: data) = some (name, data) := by
  intro name
  induction name with
  | nil => intro data _; rfl
  | cons c t ih =>
    intro data h
    simp only [List.cons_append, splitFirst, List.append_eq]
    rw [if_neg (h c (List.mem_cons_self c t)),
      ih data (fun c' hc' => h c' (List.mem_cons_of_mem c hc'))]
    rfl

theorem splitOnChar_no_sep {sep : Char} : ∀ {w : Str},
    (∀ c ∈ w, c ≠ sep) → splitOnChar sep w = [w] := by
  intro w
  induction w with
  | nil => intro _; rfl
  | cons c t ih =>
    intro h
    simp only [splitOnChar]
    rw [if_neg (h c (List.mem_cons_self c t)),
      ih (fun c' hc' => h c' (List.mem_cons_of_mem c hc'))]

theorem splitOnChar_append {sep : Char} : ∀ {w : Str} (l : Str),
    (∀ c ∈ w, c ≠ sep) →
    splitOnChar sep (w ++ sep :: l) = w :: splitOnChar sep l := by
  intro w
  induction w with
  | nil =>
    intro l _
    simp [splitOnChar]
  | cons c t ih =>
    intro l h
    simp only [List.cons_append, splitOnChar, List.append_eq]
    rw [if_neg (h c (List.mem_cons_self c t)),
      ih l (fun c' hc' => h c' (List.mem_cons_of_mem c hc'))]

theorem splitOnChar_joinWords : ∀ (ws : List Str), ws ≠ [] →
    (∀ w ∈ ws, ∀ c ∈ w, c ≠ ' ') →
    splitOnChar ' ' (joinWords ws) = ws := by
  intro ws
  induction ws with
  | nil => intro h _; exact absurd rfl h
  | cons w ws2 ih =>
    intro _ hno
    cases ws2 with
    | nil =>
      show splitOnChar ' ' w = [w]
      exact splitOnChar_no_sep (hno w (List.mem_cons_self w []))
    | cons w2 ws3 =>
      show splitOnChar ' ' (w ++ ' ' :: joinWords (w2 :: ws3)) = _
      rw [splitOnChar_append (joinWords (w2 :: ws3))
        (hno w (List.mem_cons_self w (w2 :: ws3)))]
      rw [ih (by simp) (fun w' hw' => hno w' (List.mem_cons_of_mem w hw'))]

theorem SC_wf : regWF SC = true := by decide

theorem parse_default_ok (input : Str)
    (h : hasSubstr ciissGuard input = true) :
    ∃ res reg2, parse supported_fields_parsers input false =
        .ok (some res, reg2) ∧
      loopC SC false (splitOnChar ' ' input) [] = .ok res := by
  obtain ⟨res, hres⟩ := loopC_default_ok SC_wf (splitOnChar ' ' input) []
  have href := parse_refines input false
  have hC : parseC input false = .ok (some res) := by
    unfold parseC
    rw [if_pos h, hres]
  rw [hC] at href
  cases hp : parse supported_fields_parsers input false with
  | error e =>
    rw [hp] at href
    cases href
  | ok p =>
    obtain ⟨r, reg2⟩ := p
    rw [hp] at href
    have h2 : (Except.ok r : Except PyErr (Option Res)) = .ok (some res) := href
    cases h2
    exact ⟨res, reg2, rfl, hres⟩

theorem parse_err_of_loopC_err {input : Str} {b : Bool} {e : PyErr}
    (h : hasSubstr ciissGuard input = true)
    (hl : loopC SC b (splitOnChar ' ' input) [] = .error e) :
    parse supported_fields_parsers input b = .error e := by
  have href := parse_refines input b
  have hC : parseC input b = .error e := by
    unfold parseC
    rw [if_pos h, hl]
  rw [hC] at href
  cases hp : parse supported_fields_parsers input b with
  | error e2 =>
    rw [hp] at href
    have h2 : (Except.error e2 : Except PyErr (Option Res)) = .error e := href
    cases h2
    rfl
  | ok p =>
    obtain ⟨r, reg2⟩ := p
    rw [hp] at href
    have h2 : (Except.ok r : Except PyErr (Option Res)) = .error e := href
    cases h2

theorem parse_default_reject {input name : Str} {mn mx : Nat} {vc : Str}
    (hrule : alGet name SC = some (RuleC.bounded (some (PyVal.vNat mn))
      (some (PyVal.vNat mx)) (some (PyVal.vStr vc))))
    (hguard : hasSubstr ciissGuard input = true)
    (hne : namedValues input name ≠ [])
    (hfail : (namedValues input name).all
      (fun d => rejectB mn mx vc d) = true) :
    ∃ res reg2, parse supported_fields_parsers input false =
        .ok (some res, reg2) ∧
      alGet name res = some none := by
  obtain ⟨res, reg2, hp, hres⟩ := parse_default_ok input hguard
  have hlast := loopC_lastNamed SC_wf hrule (splitOnChar ' ' input) [] res hres
  rw [namedOf_eq] at hlast
  cases hl : (namedValues input name).getLast? with
  | none => exact absurd (List.getLast?_eq_none_iff.mp hl) hne
  | some d =>
    rw [hl] at hlast
    have hmem : d ∈ namedValues input name := by
      obtain ⟨hnil, heq⟩ := List.mem_getLast?_eq_getLast (l :=
        namedValues input name) (x := d) hl
      rw [heq]
      exact List.getLast_mem hnil
    have hrej : rejectB mn mx vc d = true := List.all_eq_true.mp hfail d hmem
    refine ⟨res, reg2, hp, ?_⟩
    rw [hlast]
    show some (if rejectB mn mx vc d then none else some d) = some none
    rw [hrej]
    rfl

theorem parse_strict_reject {input name : Str} {mn mx : Nat} {vc : Str}
    (hrule : alGet name SC = some (RuleC.bounded (some (PyVal.vNat mn))
      (some (PyVal.vNat mx)) (some (PyVal.vStr vc))))
    (hguard : hasSubstr ciissGuard input = true)
    (hne : namedValues input name ≠ [])
    (hfail : (namedValues input name).all
      (fun d => rejectB mn mx vc d) = true) :
    ∃ msg, parse supported_fields_parsers input true =
      .error (.valueError msg) := by
  obtain ⟨d, hd⟩ := List.exists_mem_of_ne_nil _ hne
  have htok := namedValues_mem hd
  obtain ⟨p, hp, hsp⟩ := List.mem_filterMap.mp htok
  have hrej : rejectB mn mx vc d = true := List.all_eq_true.mp hfail d hd
  obtain ⟨msg, hmsg⟩ := loopC_strict_err SC_wf (splitOnChar ' ' input) []
    ⟨p, hp, name, d, mn, mx, vc, hsp, hrule, hrej⟩
  exact ⟨msg, parse_err_of_loopC_err hguard hmsg⟩

/-- C1: the claim (and the repository's own test) says that for a duplicated
field name the FIRST occurrence wins and later occurrences are ignored.  The
code disagrees: `parse` re-evaluates every occurrence and overwrites, so the
LAST occurrence wins.  At the spec's own example input
`ciissversion:2 url:example.com url:example2.com` the result's `url` is
`example2.com`, not `example.com`. -/
theorem C1_code_divergence :
    Except.map Prod.fst (parse supported_fields_parsers
        "ciissversion:2 url:example.com url:example2.com".toList false) =
      .ok (some [("ciissversion".toList, some "2".toList),
        ("url".toList, some "example2.com".toList)]) ∧
    "example2.com".toList ≠ "example.com".toList := by
  constructor
  · rfl
  · decide

/-- C2 counterexample: the input `xciissversion:1 url:example.com` has no
token NAMED `ciissversion` in its tokenized form, yet `parse` does not
return the absent result: the mandatory-field guard is a raw substring
test, and `xciissversion:1` contains `ciissversion:` as a substring. -/
theorem C2_counterexample :
    ((tokensOf "xciissversion:1 url:example.com".toList).all
      (fun t => t.1 ≠ "ciissversion".toList)) = true ∧
    Except.map Prod.fst (parse supported_fields_parsers
        "xciissversion:1 url:example.com".toList false) =
      .ok (some [("url".toList, some "example.com".toList)]) := by
  constructor
  · decide
  · rfl

/-- C2 (amended): `parse` returns the absent result exactly when the RAW
input string does not contain `"ciissversion:"` as a substring — a
substring test on the unsplit input, not a test on token names. -/
theorem C2_amended (input : Str) (b : Bool) :
    (hasSubstr ciissGuard input = false →
      parse supported_fields_parsers input b =
        .ok (none, supported_fields_parsers)) ∧
    (hasSubstr ciissGuard input = true →
      ∀ reg2, parse supported_fields_parsers input b ≠ .ok (none, reg2)) := by
  constructor
  · intro h
    simp [parse, h]
  · intro h reg2 heq
    unfold parse at heq
    rw [if_pos h] at heq
    cases hloop : parseLoop b supported_fields_parsers
        (splitOnChar ' ' input) [] with
    | error e => rw [hloop] at heq; cases heq
    | ok p =>
      obtain ⟨res, reg3⟩ := p
      rw [hloop] at heq
      simp only [Except.ok.injEq, Prod.mk.injEq] at heq
      cases heq.1

/-- C3 counterexample: parsing `ciissversion:1` in default mode leaves the
registry different from what it was before the call — the evaluated rule's
`args` dict gained the `field_name`, `value` and `raise_exception` keys. -/
theorem C3_counterexample :
    Except.map Prod.snd (parse supported_fields_parsers
      "ciissversion:1".toList false) ≠ .ok supported_fields_parsers := by
  decide

/-- C3 (amended): `parse` DOES mutate the registry (each evaluated bounded
rule's `args` dict gains or overwrites its `field_name`, `value` and
`raise_exception` keys), but the registry's field names, rule kinds and
every rule's `min_length`, `max_length` and `valid_chars` entries are
preserved (the read-only core `regCore` is invariant), and the parse result
is a pure function of the input and that core (it equals `parseC`). -/
theorem C3_amended (input : Str) (b : Bool) :
    (∀ r reg2, parse supported_fields_parsers input b = .ok (r, reg2) →
      regCore reg2 = SC) ∧
    Except.map Prod.fst (parse supported_fields_parsers input b) =
      parseC input b :=
  ⟨fun _ _ h => parse_regCore h, parse_refines input b⟩

/-- C4 counterexample: the spec's minimum field list includes the
key-verification identifier `ricochet`, but the registry has no entry for
it. -/
theorem C4_counterexample :
    alGet "ricochet".toList supported_fields_parsers = none := by
  decide

/-- C4 (amended): the registry contains an entry for every field of the
spec's minimum list except `ricochet` and the "CPU scheduler name" item
(no registry key corresponds to either): email, url, proof, the version
marker, pgp, abuse, keybase, twitter, mastodon, matrix, xmpp, otr3,
hoster, cost, uplinkbw, trafficacct, memory, cpu, virtualization,
donationurl, three cryptocurrency schemes (btc, zec, xmr), and the
offlinemasterkey, signingkeylifetime, sandbox, os, tls, aesni,
autoupdate, confmgmt, dnslocation, dnsqname, dnssec and dnslocalrootzone
fields. -/
theorem C4_amended :
    (["email", "url", "proof", "ciissversion", "pgp", "abuse", "keybase",
      "twitter", "mastodon", "matrix", "xmpp", "otr3", "hoster", "cost",
      "uplinkbw", "trafficacct", "memory", "cpu", "virtualization",
      "donationurl", "btc", "zec", "xmr", "offlinemasterkey",
      "signingkeylifetime", "sandbox", "os", "tls", "aesni", "autoupdate",
      "confmgmt", "dnslocation", "dnsqname", "dnssec",
      "dnslocalrootzone"].all
      (fun s => (alGet s.toList supported_fields_parsers).isSome)) = true := by
  decide

/-- C5: for a bounded field whose every declared value violates its rule
(given the version guard passes): in default mode the parse returns a
result in which the field's key is present mapped to `none`; in strict
mode the parse aborts with a `ValueError`; and evaluating any violating
value in strict mode raises a `ValueError` whose message is the field
name inside one of the three violation texts (too short / too long /
char-class mismatch). -/
theorem C5_rejection_semantics (input name : Str) (mn mx : Nat) (vc : Str)
    (hrule : alGet name SC = some (RuleC.bounded (some (PyVal.vNat mn))
      (some (PyVal.vNat mx)) (some (PyVal.vStr vc))))
    (hguard : hasSubstr ciissGuard input = true)
    (hne : namedValues input name ≠ [])
    (hfail : (namedValues input name).all
      (fun d => rejectB mn mx vc d) = true) :
    (∃ res reg2, parse supported_fields_parsers input false =
        .ok (some res, reg2) ∧ alGet name res = some none) ∧
    (∃ msg, parse supported_fields_parsers input true =
      .error (.valueError msg)) ∧
    (∀ d, rejectB mn mx vc d = true →
      ∃ msg, parse_string_value d mn mx vc true name =
          .error (.valueError msg) ∧
        (msg = tooShortMsg name ∨ msg = tooLongMsg name ∨
          msg = badCharsMsg name)) :=
  ⟨parse_default_reject hrule hguard hne hfail,
    parse_strict_reject hrule hguard hne hfail,
    fun _ h => psv_strict_reject name h⟩

theorem C5_rejection_semantics_witness :
    (∃ res reg2, parse supported_fields_parsers
        "ciissversion:1 pgp:xyz".toList false = .ok (some res, reg2) ∧
      alGet "pgp".toList res = some none) ∧
    (∃ msg, parse supported_fields_parsers
        "ciissversion:1 pgp:xyz".toList true = .error (.valueError msg)) ∧
    (∀ d, rejectB 40 40 "[a-zA-Z0-9]+".toList d = true →
      ∃ msg, parse_string_value d 40 40 "[a-zA-Z0-9]+".toList true
          "pgp".toList = .error (.valueError msg) ∧
        (msg = tooShortMsg "pgp".toList ∨ msg = tooLongMsg "pgp".toList ∨
          msg = badCharsMsg "pgp".toList)) :=
  C5_rejection_semantics "ciissversion:1 pgp:xyz".toList "pgp".toList 40 40
    "[a-zA-Z0-9]+".toList (by decide) (by decide) (by decide) (by decide)

/-- C6: the length bounds of a bounded rule are inclusive at both ends,
the checks run in the order too-short, too-long, character class, and the
character check is a search (one matching character suffices even
alongside disallowed characters), skipped for the wildcard pattern:
acceptance holds iff `minLength ≤ len ≤ maxLength` and the pattern is the
wildcard or some character of the value matches the bracket expression;
concretely, `a!!!` passes the url rule although `!` is outside its
class. -/
theorem C6_bounded_rule (mn mx : Nat) (vc name d : Str) :
    (parse_string_value d mn mx vc false name = .ok (some d) ↔
      (mn ≤ d.length ∧ d.length ≤ mx ∧
        (vc = wildcard ∨ ∃ c, c ∈ d ∧ matchesClass vc c = true))) ∧
    (d.length < mn →
      parse_string_value d mn mx vc true name =
        .error (.valueError (tooShortMsg name))) ∧
    (¬ d.length < mn → mx < d.length →
      parse_string_value d mn mx vc true name =
        .error (.valueError (tooLongMsg name))) ∧
    parse_string_value "a!!!".toList 4 399 "[_%/:a-zA-Z0-9.-]+".toList false
      "url".toList = .ok (some "a!!!".toList) := by
  refine ⟨?_, fun h => psv_strict_short mx vc name h,
    fun h1 h2 => psv_strict_long vc name h1 h2, by decide⟩
  rw [psv_accept_iff]
  constructor
  · rintro ⟨h1, h2, h3⟩
    refine ⟨h1, h2, ?_⟩
    rcases h3 with h3 | h3
    · exact Or.inl h3
    · right
      simpa [reSearch, List.any_eq_true] using h3
  · rintro ⟨h1, h2, h3⟩
    refine ⟨h1, h2, ?_⟩
    rcases h3 with h3 | h3
    · exact Or.inl h3
    · right
      simpa [reSearch, List.any_eq_true] using h3

/-- C7: evaluating an email-like field (`email`, `abuse`, `xmpp` map to
`_parse_email_value` in the registry) replaces every occurrence of the
marker `[]` by `@`, never rejects (the evaluation is always `ok` with a
present value, whatever the shape or length), and maps the empty value
to the empty value, not to `None`; `test[]example.com` becomes
`test@example.com`. -/
theorem C7_email_like :
    (∀ v : Str, parse_email_value v = replaceBrk v) ∧
    alGet "email".toList supported_fields_parsers = some Rule.email ∧
    alGet "abuse".toList supported_fields_parsers = some Rule.email ∧
    alGet "xmpp".toList supported_fields_parsers = some Rule.email ∧
    (∀ (b : Bool) (name v : Str),
      evalCore b name v RuleC.email = .ok (some (parse_email_value v))) ∧
    parse_email_value [] = [] ∧
    parse_email_value "test[]example.com".toList =
      "test@example.com".toList := by
  refine ⟨?_, by decide, by decide, by decide, fun _ _ _ => rfl, rfl,
    by decide⟩
  intro v
  by_cases h : v = []
  · subst h; rfl
  · simp [parse_email_value, h]

/-- C8: tokenization splits the input on single spaces, discards
colon-free words, and splits each remaining word exactly once at its
first colon, so a value keeps any further colons and a trailing colon
yields an empty raw value: joining space-free words with single spaces
and splitting recovers them; a colon-free word maps to no token; a word
`name ++ ':' ++ data` (name colon-free) tokenizes to `(name, data)`
whatever colons `data` holds; and concretely
`url:https://example.com` keeps `https://example.com` intact, `url:`
gives the empty value, and free-text words disappear. -/
theorem C8_tokenization (name data w : Str) :
    ((∀ c ∈ w, c ≠ ':') → splitFirst ':' w = none) ∧
    ((∀ c ∈ name, c ≠ ':') →
      splitFirst ':' (name ++ ':' :: data) = some (name, data)) ∧
    (∀ ws : List Str, ws ≠ [] → (∀ u ∈ ws, ∀ c ∈ u, c ≠ ' ') →
      splitOnChar ' ' (joinWords ws) = ws) ∧
    tokensOf "url:https://example.com".toList =
      [("url".toList, "https://example.com".toList)] ∧
    tokensOf "url:".toList = [("url".toList, [])] ∧
    tokensOf (joinWords ["Random".toList, "Person".toList,
      "url:example.com".toList]) =
      [("url".toList, "example.com".toList)] :=
  ⟨splitFirst_no_colon, fun h => splitFirst_append_colon data h,
    fun ws h1 h2 => splitOnChar_joinWords ws h1 h2, by decide, by decide,
    by decide⟩

/-- C9: the email-like transform is idempotent: its output never contains
the marker `[]`, re-running the replacement on its own output is a no-op,
and re-evaluating an already-normalized email value returns it
unchanged. -/
theorem C9_idempotent (v : Str) :
    hasSubstr brkMark (replaceBrk v) = false ∧
    replaceBrk (replaceBrk v) = replaceBrk v ∧
    parse_email_value (parse_email_value v) = parse_email_value v := by
  refine ⟨noBrk_replaceBrk v, replaceBrk_of_noBrk _ (noBrk_replaceBrk v), ?_⟩
  by_cases h : v = []
  · subst h; rfl
  · have h1 : parse_email_value v = replaceBrk v := by
      simp [parse_email_value, h]
    rw [h1]
    by_cases h2 : replaceBrk v = []
    · rw [h2]; rfl
    · have h3 : parse_email_value (replaceBrk v) =
          replaceBrk (replaceBrk v) := by
        simp [parse_email_value, h2]
      rw [h3]
      exact replaceBrk_of_noBrk _ (noBrk_replaceBrk v)

/-- C10: only the PRESENCE of the version marker gates the parse, not the
validity of its value: when the input declares `ciissversion` tokens that
all fail the version rule (bounds 1..1, pattern `[12]+`), default-mode
`parse` still returns a result mapping in which `ciissversion` is present
mapped to `none`; at the concrete input `ciissversion:9 url:example.com`
the url field is accepted normally alongside. -/
theorem C10_version_gate (input : Str)
    (hne : namedValues input "ciissversion".toList ≠ [])
    (hfail : (namedValues input "ciissversion".toList).all
      (fun d => rejectB 1 1 "[12]+".toList d) = true) :
    (∃ res reg2, parse supported_fields_parsers input false =
        .ok (some res, reg2) ∧
      alGet "ciissversion".toList res = some none) ∧
    parseC "ciissversion:9 url:example.com".toList false =
      .ok (some [("ciissversion".toList, none),
        ("url".toList, some "example.com".toList)]) :=
  ⟨parse_default_reject (by decide) (ciiss_guard_of_token hne) hne hfail,
    by rfl⟩

theorem C10_version_gate_witness :
    (∃ res reg2, parse supported_fields_parsers
        "ciissversion:9 url:example.com".toList false =
        .ok (some res, reg2) ∧
      alGet "ciissversion".toList res = some none) ∧
    parseC "ciissversion:9 url:example.com".toList false =
      .ok (some [("ciissversion".toList, none),
        ("url".toList, some "example.com".toList)]) :=
  C10_version_gate "ciissversion:9 url:example.com".toList (by decide)
    (by decide)

end TorContactInfo
